import Mathlib

/-!
threadpool11 : `Pool.cpp`

A sequential model of `src/threadpool11/src/Pool.cpp`.

* The two worker collections (`std::list<Worker>`) are Lean lists, front to back.
* A list iterator is a position; `--l.end()` is the last position, and on an empty
  list it is a handle that cannot be dereferenced.  Every insertion and removal in
  `Pool.cpp` happens at the back of a list, so positions of the other nodes never move.
* Every statement of the pool that touches a mutex, a worker flag, a condition
  variable, a thread or a collection appends one `Event` to a trace, in program order.
  Which mutexes are held at a point of the trace is recomputed from the trace (`held`).
* `WorkerCountType` is an unsigned integer type declared in `Pool.h`, which is not part
  of the source tree; its width in bits is the parameter `w`.
* The worker thread body lives in `Worker.cpp` (not part of the source tree).  A worker
  thread is assumed to answer the two blocking calls of the pool: the wait on
  `initializer` returns, and `thread.join()` returns.
-/

namespace threadpool11

/-! ## Data model -/

/-- A `std::list<Worker>::iterator`: `some i` is the node at position `i`,
`none` is a handle that does not designate a node. -/
abbrev Iter := Option Nat

/-- The fields of a `Worker` that `Pool.cpp` reads or writes, and the identity of its node. -/
structure Worker where
  id : Nat
  terminate : Bool
  isWorkReallyPosted : Bool
  isReallyInitialized : Bool
  iterator : Iter
deriving DecidableEq, Repr

/-- The two worker collections of a pool. -/
inductive Coll where
  | inactive
  | active
deriving DecidableEq, Repr

/-- The mutexes `Pool.cpp` locks: three of the pool, two per worker. -/
inductive Mutex where
  | inactiveWorkerContMutex
  | activeWorkerContMutex
  | enqueuedWorkMutex
  | activatorMutex (worker : Nat)
  | initMutex (worker : Nat)
deriving DecidableEq, Repr

/-- The mutex guarding a collection. -/
def Coll.mutex : Coll → Mutex
  | .inactive => .inactiveWorkerContMutex
  | .active => .activeWorkerContMutex

/-- One observable step of the calling thread of a pool operation.  An `erase` records
the worker as it is at the moment its node is removed and the worker destroyed. -/
inductive Event where
  | lock (m : Mutex)
  | unlock (m : Mutex)
  | setTerminate (worker : Nat)
  | setIsWorkReallyPosted (worker : Nat)
  | notifyOne (worker : Nat)
  | join (worker : Nat)
  | erase (c : Coll) (wk : Worker)
  | emplace (worker : Nat)
  | awaitInitialized (worker : Nat)
deriving DecidableEq, Repr

/-- The data members of `Pool`; `allocated` counts the worker nodes created so far and
gives the next node its identity. -/
structure Pool where
  inactiveWorkers : List Worker
  activeWorkers : List Worker
  enqueuedWork : List Nat
  allocated : Nat
deriving DecidableEq, Repr

/-- Ways an operation can fail to return normally. -/
inductive Err where
  | invalidIterator
  | assertionFailed
  | outOfFuel
deriving DecidableEq, Repr

/-- Pool data together with the trace of events emitted so far. -/
structure St where
  pool : Pool
  trace : List Event
deriving DecidableEq, Repr

/-- Collection `c` of the pool. -/
def Pool.workers (p : Pool) : Coll → List Worker
  | .inactive => p.inactiveWorkers
  | .active => p.activeWorkers

/-- Replace collection `c` of the pool. -/
def Pool.setWorkers (p : Pool) (c : Coll) (l : List Worker) : Pool :=
  match c with
  | .inactive => { p with inactiveWorkers := l }
  | .active => { p with activeWorkers := l }

/-- Append one event to the trace. -/
def emit (e : Event) (s : St) : St :=
  { s with trace := s.trace ++ [e] }

/-! ## Lock state recomputed from a trace -/

/-- Effect of one event on the list of held mutexes. -/
def heldStep (h : List Mutex) : Event → List Mutex
  | .lock m => m :: h
  | .unlock m => h.erase m
  | _ => h

/-- Mutexes held after the events `t`, starting from `h`. -/
def heldFrom (h : List Mutex) (t : List Event) : List Mutex :=
  t.foldl heldStep h

/-- Mutexes held by the calling thread after the events `t`, none being held before. -/
def held (t : List Event) : List Mutex :=
  heldFrom [] t

/-! ## Statements through an iterator -/

/-- The expression `--l.end()`. -/
def prevEnd (l : List Worker) : Iter :=
  if l.length = 0 then none else some (l.length - 1)

/-- A statement `it->...` on collection `c`: the designated worker becomes `f wk`
and the event `ev wk.id` is emitted.  Dereferencing a handle that designates no
node of the collection is an error. -/
def through (c : Coll) (it : Iter) (f : Worker → Worker) (ev : Nat → Event)
    (s : St) : Except Err St :=
  match it with
  | none => .error .invalidIterator
  | some i =>
    match (s.pool.workers c)[i]? with
    | none => .error .invalidIterator
    | some wk =>
      .ok { pool := s.pool.setWorkers c ((s.pool.workers c).set i (f wk)),
            trace := s.trace ++ [ev wk.id] }

/-- Statement `it->terminate = 1`. -/
def setTerminate (c : Coll) (it : Iter) : St → Except Err St :=
  through c it (fun wk => { wk with terminate := true }) Event.setTerminate

/-- Locking `it->activatorMutex`. -/
def lockActivator (c : Coll) (it : Iter) : St → Except Err St :=
  through c it (fun wk => wk) (fun i => Event.lock (.activatorMutex i))

/-- Statement `it->isWorkReallyPosted = true`. -/
def setIsWorkReallyPosted (c : Coll) (it : Iter) : St → Except Err St :=
  through c it (fun wk => { wk with isWorkReallyPosted := true }) Event.setIsWorkReallyPosted

/-- Statement `it->activator.notify_one()`. -/
def notifyOne (c : Coll) (it : Iter) : St → Except Err St :=
  through c it (fun wk => wk) Event.notifyOne

/-- Unlocking `it->activatorMutex`. -/
def unlockActivator (c : Coll) (it : Iter) : St → Except Err St :=
  through c it (fun wk => wk) (fun i => Event.unlock (.activatorMutex i))

/-- Statement `it->thread.join()`. -/
def joinThread (c : Coll) (it : Iter) : St → Except Err St :=
  through c it (fun wk => wk) Event.join

/-- Statement `workers.erase(it)` on collection `c`. -/
def eraseAt (c : Coll) (it : Iter) (s : St) : Except Err St :=
  match it with
  | none => .error .invalidIterator
  | some i =>
    match (s.pool.workers c)[i]? with
    | none => .error .invalidIterator
    | some wk =>
      .ok { pool := s.pool.setWorkers c ((s.pool.workers c).eraseIdx i),
            trace := s.trace ++ [Event.erase c wk] }

/-- Statement `inactiveWorkers.pop_back()`. -/
def popBackInactive (s : St) : Except Err St :=
  match s.pool.inactiveWorkers.getLast? with
  | none => .error .invalidIterator
  | some wk =>
    .ok { pool := { s.pool with inactiveWorkers := s.pool.inactiveWorkers.dropLast },
          trace := s.trace ++ [Event.erase .inactive wk] }

/-! ## `Pool::joinAll` (lines 47-92) -/

/-- One pass through the body of the `do ... while(true)` loop of `joinAll`.
The boolean is `false` when the pass left the loop through `break`. -/
def joinAllBody (s : St) : Except Err (Bool × St) := do
  let s := emit (.lock .activeWorkerContMutex) s
  let s := emit (.lock .inactiveWorkerContMutex) s
  let nInactiveWorkers := s.pool.inactiveWorkers.length
  let nActiveWorkers := s.pool.activeWorkers.length
  let activeWorkIt := prevEnd s.pool.activeWorkers
  let inactiveWorkIt := prevEnd s.pool.inactiveWorkers
  let s := emit (.unlock .activeWorkerContMutex) s
  let s := emit (.unlock .inactiveWorkerContMutex) s
  if nInactiveWorkers = 0 ∧ nActiveWorkers = 0 then
    return (false, s)
  let s ←
    if nInactiveWorkers > 0 then do
      let s ← setTerminate .inactive inactiveWorkIt s
      let s ← lockActivator .inactive inactiveWorkIt s
      let s ← setIsWorkReallyPosted .inactive inactiveWorkIt s
      let s ← notifyOne .inactive inactiveWorkIt s
      let s ← unlockActivator .inactive inactiveWorkIt s
      let s ← joinThread .inactive inactiveWorkIt s
      let s := emit (.lock .inactiveWorkerContMutex) s
      let s ← eraseAt .inactive inactiveWorkIt s
      pure (emit (.unlock .inactiveWorkerContMutex) s)
    else pure s
  let s ←
    if nActiveWorkers > 0 then do
      let s ← setTerminate .active activeWorkIt s
      let s ← lockActivator .active activeWorkIt s
      let s ← setIsWorkReallyPosted .active activeWorkIt s
      let s ← notifyOne .active activeWorkIt s
      let s ← unlockActivator .active activeWorkIt s
      let s ← joinThread .active activeWorkIt s
      let s := emit (.lock .activeWorkerContMutex) s
      let s ← eraseAt .active activeWorkIt s
      pure (emit (.unlock .activeWorkerContMutex) s)
    else pure s
  return (true, s)

/-- The loop of `joinAll`, allowed at most `fuel` passes through its body. -/
def joinAllLoop : Nat → St → Except Err St
  | 0, _ => .error .outOfFuel
  | fuel + 1, s =>
    match joinAllBody s with
    | .error e => .error e
    | .ok (false, s1) => .ok s1
    | .ok (true, s1) => joinAllLoop fuel s1

/-- The call `joinAll()` on pool `p`, with at most `fuel` passes through the loop. -/
def joinAll (fuel : Nat) (p : Pool) : Except Err St :=
  joinAllLoop fuel { pool := p, trace := [] }

/-! ## Queries (lines 94-110) -/

/-- Conversion of a `size_t` to `WorkerCountType`. -/
def toWorkerCount (w : Nat) (n : Nat) : Nat :=
  n % 2 ^ w

/-- Query `getWorkQueueCount()`. -/
def getWorkQueueCount (w : Nat) (p : Pool) : Nat :=
  toWorkerCount w p.enqueuedWork.length

/-- Query `getActiveWorkerCount()`. -/
def getActiveWorkerCount (w : Nat) (p : Pool) : Nat :=
  toWorkerCount w p.activeWorkers.length

/-- Query `getInactiveWorkerCount()`. -/
def getInactiveWorkerCount (w : Nat) (p : Pool) : Nat :=
  toWorkerCount w p.inactiveWorkers.length

/-! ## `Pool::spawnWorkers` (lines 136-148) -/

/-- The condition of the `assert` on line 139, for `size = inactiveWorkers.size()`. -/
def spawnAssertion (w : Nat) (size n : Nat) : Bool :=
  decide (toWorkerCount w (size + n) > n) || decide (toWorkerCount w (size + n) > size)

/-- Modelled from the spec: the `Worker` constructor (in `Worker.cpp`, not part of the
source tree) starts the thread of a worker whose flags are all clear. -/
def Worker.create (id : Nat) : Worker :=
  { id := id, terminate := false, isWorkReallyPosted := false,
    isReallyInitialized := false, iterator := none }

/-- Modelled from the spec: lines 145-146 return once the worker thread has set
`isReallyInitialized`; the wait is skipped when the flag is already set. -/
def awaitInitialized (wk : Worker) : Worker :=
  if wk.isReallyInitialized = false then { wk with isReallyInitialized := true } else wk

/-- One pass through the body of the `while` loop of `spawnWorkers` (lines 142-146). -/
def spawnBody (s : St) : St :=
  let workerIterator : Iter := some s.pool.inactiveWorkers.length
  let wk := Worker.create s.pool.allocated
  let wk := { wk with iterator := workerIterator }
  let wk := awaitInitialized wk
  { pool := { s.pool with inactiveWorkers := s.pool.inactiveWorkers ++ [wk],
                          allocated := s.pool.allocated + 1 },
    trace := s.trace ++ [Event.emplace wk.id, Event.lock (.initMutex wk.id),
                         Event.awaitInitialized wk.id, Event.unlock (.initMutex wk.id)] }

/-- The loop `while(n-- > 0)` of `spawnWorkers`. -/
def spawnLoop : Nat → St → St
  | 0, s => s
  | n + 1, s => spawnLoop n (spawnBody s)

/-- The call `spawnWorkers(n)`. -/
def spawnWorkers (w : Nat) (n : Nat) (s : St) : Except Err St :=
  if spawnAssertion w s.pool.inactiveWorkers.length n then .ok (spawnLoop n s)
  else .error .assertionFailed

/-- A pool whose members have just been default-constructed. -/
def Pool.empty : Pool :=
  { inactiveWorkers := [], activeWorkers := [], enqueuedWork := [], allocated := 0 }

/-- The constructor `Pool(workerCount)` (lines 37-40). -/
def Pool.construct (w : Nat) (workerCount : Nat) : Except Err St :=
  spawnWorkers w workerCount { pool := Pool.empty, trace := [] }

/-- The call `increaseWorkerCountBy(n)` (lines 112-116). -/
def increaseWorkerCountBy (w : Nat) (n : Nat) (p : Pool) : Except Err St := do
  let s := emit (.lock .inactiveWorkerContMutex) { pool := p, trace := [] }
  let s ← spawnWorkers w n s
  pure (emit (.unlock .inactiveWorkerContMutex) s)

/-! ## `Pool::decreaseWorkerCountBy` (lines 118-134) -/

/-- One pass through the body of the `for` loop of `decreaseWorkerCountBy`. -/
def decreaseBody (s : St) : Except Err St := do
  let last := prevEnd s.pool.inactiveWorkers
  let s ← setTerminate .inactive last s
  let s ← lockActivator .inactive last s
  let s ← setIsWorkReallyPosted .inactive last s
  let s ← notifyOne .inactive last s
  let s ← unlockActivator .inactive last s
  let s ← joinThread .inactive last s
  popBackInactive s

/-- The loop `for(i = 0; i < n; ++i)` of `decreaseWorkerCountBy`, by the number of
passes still to make. -/
def decreaseLoop : Nat → St → Except Err St
  | 0, s => .ok s
  | n + 1, s =>
    match decreaseBody s with
    | .error e => .error e
    | .ok s1 => decreaseLoop n s1

/-- The call `decreaseWorkerCountBy(n)`: the returned count and the final state. -/
def decreaseWorkerCountBy (w : Nat) (n : Nat) (p : Pool) : Except Err (Nat × St) := do
  let s := emit (.lock .inactiveWorkerContMutex) { pool := p, trace := [] }
  let n := min n (toWorkerCount w s.pool.inactiveWorkers.length)
  let s ← decreaseLoop n s
  pure (n, emit (.unlock .inactiveWorkerContMutex) s)

/-! ## Event sequences of the loops, in closed form -/

/-- Events of lines 70-75, 82-87 and 125-130 for the worker `i`. -/
def terminateEvents (i : Nat) : List Event :=
  [.setTerminate i, .lock (.activatorMutex i), .setIsWorkReallyPosted i, .notifyOne i,
   .unlock (.activatorMutex i), .join i]

/-- Events of lines 54-63. -/
def snapshotEvents : List Event :=
  [.lock .activeWorkerContMutex, .lock .inactiveWorkerContMutex,
   .unlock .activeWorkerContMutex, .unlock .inactiveWorkerContMutex]

/-- Worker `wk` after lines 70 and 72 (82 and 84, 125 and 127): both flags set. -/
def Worker.toldToTerminate (wk : Worker) : Worker :=
  { wk with terminate := true, isWorkReallyPosted := true }

/-- Events of one `if` block of `joinAll` (lines 68-78 or 80-90) for worker `x` of `c`. -/
def drainEvents (c : Coll) (x : Worker) : List Event :=
  terminateEvents x.id ++ [.lock c.mutex, .erase c x.toldToTerminate, .unlock c.mutex]

/-- Events of one `if` block of `joinAll` on the collection `l`: none when `l` is empty. -/
def drainLast (c : Coll) (l : List Worker) : List Event :=
  match l.getLast? with
  | none => []
  | some x => drainEvents c x

/-- Events of `joinAll` over at most `n` passes. -/
def joinAllEvents : Nat → List Worker → List Worker → List Event
  | 0, _, _ => []
  | n + 1, xs, ys =>
    if xs = [] ∧ ys = [] then snapshotEvents
    else snapshotEvents ++ drainLast .inactive xs ++ drainLast .active ys
          ++ joinAllEvents n xs.dropLast ys.dropLast

/-- Events of one pass of the loop of `decreaseWorkerCountBy` for worker `x`. -/
def decreaseBlock (x : Worker) : List Event :=
  terminateEvents x.id ++ [.erase .inactive x.toldToTerminate]

/-- Events of `n` passes of the loop of `decreaseWorkerCountBy`. -/
def decreaseEvents : Nat → List Worker → List Event
  | 0, _ => []
  | n + 1, xs =>
    match xs.getLast? with
    | none => []
    | some x => decreaseBlock x ++ decreaseEvents n xs.dropLast

/-- Number of passes `joinAll` makes through its loop on pool `p`. -/
def joinAllPasses (p : Pool) : Nat :=
  max p.inactiveWorkers.length p.activeWorkers.length + 1

/-! ## Properties of traces -/

/-- The workers a trace removes from collection `c`, in the order of their removal, each
as it was when removed. -/
def erased (c : Coll) (t : List Event) : List Worker :=
  t.filterMap fun e =>
    match e with
    | .erase c1 wk => if c1 = c then some wk else none
    | _ => none

/-- The event locks or unlocks a collection mutex. -/
def Event.onCollectionMutex : Event → Bool
  | .lock .inactiveWorkerContMutex => true
  | .lock .activeWorkerContMutex => true
  | .unlock .inactiveWorkerContMutex => true
  | .unlock .activeWorkerContMutex => true
  | _ => false

/-- Property `Q pre e post` holds at every event `e` of `t`, where `pre` are the events
before it (after `acc`) and `post` the events after it (before `rest`). -/
def OccAll (Q : List Event → Event → List Event → Prop) (acc t rest : List Event) : Prop :=
  ∀ pre e post, t = pre ++ e :: post → Q (acc ++ pre) e (post ++ rest)

/-- At a `join` no collection mutex is held, and the next steps lock a collection,
erase the joined worker from it and unlock it. -/
def JoinUnlocked (pre : List Event) (e : Event) (post : List Event) : Prop :=
  ∀ i, e = Event.join i →
    Mutex.inactiveWorkerContMutex ∉ held pre ∧ Mutex.activeWorkerContMutex ∉ held pre ∧
    ∃ c wk post1, wk.id = i ∧
      post = Event.lock c.mutex :: Event.erase c wk :: Event.unlock c.mutex :: post1

/-- At a `join` the inactive-collection mutex, and no other mutex, is held, and the next
step erases the joined worker from the inactive collection. -/
def JoinUnderInactiveLock (pre : List Event) (e : Event) (post : List Event) : Prop :=
  ∀ i, e = Event.join i → held pre = [Mutex.inactiveWorkerContMutex] ∧
    ∃ wk post1, wk.id = i ∧ post = Event.erase .inactive wk :: post1

/-- Every step but the first one is made with the inactive-collection mutex held. -/
def HeldAfterEntry (pre : List Event) (_e : Event) (_post : List Event) : Prop :=
  pre = [] ∨ Mutex.inactiveWorkerContMutex ∈ held pre

/-- A write of `isWorkReallyPosted` is made with the activation mutex of the worker held;
a write of `terminate` is made without it, and the next step acquires it. -/
def FlagWrites (pre : List Event) (e : Event) (post : List Event) : Prop :=
  (∀ i, e = Event.setIsWorkReallyPosted i → Mutex.activatorMutex i ∈ held pre) ∧
  (∀ i, e = Event.setTerminate i →
    Mutex.activatorMutex i ∉ held pre ∧ ∃ post1, post = Event.lock (.activatorMutex i) :: post1)

/-- A worker is erased with both flags set, right after the six steps that terminate and
join it (only the lock of the collection may stand in between), and at a `join` no
activation mutex is held. -/
def TerminatedThenErased (pre : List Event) (e : Event) (_post : List Event) : Prop :=
  (∀ c wk, e = Event.erase c wk →
    wk.terminate = true ∧ wk.isWorkReallyPosted = true ∧
    ∃ pre0 mid, pre = pre0 ++
      [Event.setTerminate wk.id, Event.lock (.activatorMutex wk.id),
       Event.setIsWorkReallyPosted wk.id, Event.notifyOne wk.id,
       Event.unlock (.activatorMutex wk.id), Event.join wk.id] ++ mid ∧
      (mid = [] ∨ mid = [Event.lock c.mutex])) ∧
  (∀ i, e = Event.join i → ∀ j, Mutex.activatorMutex j ∉ held pre)

/-! ## Concrete pools -/

/-- An initialized worker with node identity `i`, stored at position `pos`. -/
def Worker.idle (i pos : Nat) : Worker :=
  { id := i, terminate := false, isWorkReallyPosted := false, isReallyInitialized := true,
    iterator := some pos }

/-- A pool with one inactive worker (node 7) and one active worker (node 9). -/
def poolOneOne : Pool :=
  { inactiveWorkers := [Worker.idle 7 0], activeWorkers := [Worker.idle 9 0],
    enqueuedWork := [], allocated := 10 }

/-- A pool with 300 inactive workers (nodes 0 to 299) and no active worker. -/
def poolManyIdle : Pool :=
  { inactiveWorkers := (List.range 300).map fun i => Worker.idle i i, activeWorkers := [],
    enqueuedWork := [], allocated := 300 }

/-- A pool with two inactive workers (nodes 3, 4) and no active worker. -/
def poolTwoIdle : Pool :=
  { inactiveWorkers := [Worker.idle 3 0, Worker.idle 4 1], activeWorkers := [],
    enqueuedWork := [], allocated := 5 }

/-! ## Statements on a collection whose last node is known -/

theorem eraseIdx_concat_length (xs : List Worker) (x : Worker) :
    (xs ++ [x]).eraseIdx xs.length = xs := by
  rw [List.eraseIdx_append_of_length_le (Nat.le_refl _)]
  simp

theorem prevEnd_concat (xs : List Worker) (x : Worker) :
    prevEnd (xs ++ [x]) = some xs.length := by
  simp [prevEnd]

theorem prevEnd_nil : prevEnd [] = none := by
  simp [prevEnd]

theorem eq_nil_or_snoc (l : List Worker) : l = [] ∨ ∃ xs x, l = xs ++ [x] := by
  rcases List.eq_nil_or_concat l with h | ⟨xs, x, h⟩
  · exact Or.inl h
  · exact Or.inr ⟨xs, x, by simpa using h⟩

/-! ## The loop of `joinAll` -/

theorem joinAllBody_eq (p : Pool) (t : List Event) :
    joinAllBody { pool := p, trace := t }
      = .ok (!(p.inactiveWorkers.isEmpty && p.activeWorkers.isEmpty),
             { pool := { p with inactiveWorkers := p.inactiveWorkers.dropLast,
                                activeWorkers := p.activeWorkers.dropLast },
               trace := t ++ (snapshotEvents ++ drainLast .inactive p.inactiveWorkers
                          ++ drainLast .active p.activeWorkers) }) := by
  obtain ⟨xs, ys, q, a⟩ := p
  rcases eq_nil_or_snoc xs with rfl | ⟨xs, x, rfl⟩ <;>
  rcases eq_nil_or_snoc ys with rfl | ⟨ys, y, rfl⟩ <;>
  simp [joinAllBody, emit, prevEnd_concat, prevEnd_nil, setTerminate, lockActivator,
    setIsWorkReallyPosted, notifyOne, unlockActivator, joinThread, through, eraseAt,
    eraseIdx_concat_length, Pool.workers, Pool.setWorkers, terminateEvents, snapshotEvents,
    drainEvents, drainLast, Coll.mutex, Worker.toldToTerminate, bind, Except.bind, pure,
    Except.pure]

theorem joinAllLoop_eq (fuel : Nat) : ∀ (p : Pool) (t : List Event),
    max p.inactiveWorkers.length p.activeWorkers.length < fuel →
    joinAllLoop fuel { pool := p, trace := t }
      = .ok { pool := { p with inactiveWorkers := [], activeWorkers := [] },
              trace := t ++ joinAllEvents fuel p.inactiveWorkers p.activeWorkers } := by
  induction fuel with
  | zero => intro p t h; omega
  | succ fuel ih =>
    intro p t h
    obtain ⟨xs, ys, q, a⟩ := p
    simp only [joinAllLoop, joinAllBody_eq]
    by_cases hxy : xs = [] ∧ ys = []
    · obtain ⟨rfl, rfl⟩ := hxy
      simp [joinAllEvents, drainLast]
    · have hne : (!(xs.isEmpty && ys.isEmpty)) = true := by
        cases xs <;> cases ys <;> simp_all
      simp only [hne]
      have hlen : max xs.dropLast.length ys.dropLast.length < fuel := by
        simp only [max_lt_iff, List.length_dropLast] at h ⊢
        have hpos : 0 < xs.length ∨ 0 < ys.length := by
          cases xs <;> cases ys <;> simp_all
        omega
      rw [ih _ _ hlen]
      simp [joinAllEvents, hxy]

theorem joinAll_eq (p : Pool) (fuel : Nat)
    (h : max p.inactiveWorkers.length p.activeWorkers.length < fuel) :
    joinAll fuel p
      = .ok { pool := { p with inactiveWorkers := [], activeWorkers := [] },
              trace := joinAllEvents fuel p.inactiveWorkers p.activeWorkers } := by
  simp [joinAll, joinAllLoop_eq fuel p [] h]

theorem joinAllLoop_ne_invalidIterator (fuel : Nat) : ∀ (s : St),
    joinAllLoop fuel s ≠ .error .invalidIterator := by
  induction fuel with
  | zero => intro s; simp [joinAllLoop]
  | succ fuel ih =>
    intro s
    obtain ⟨p, t⟩ := s
    simp only [joinAllLoop, joinAllBody_eq]
    cases hb : (!(p.inactiveWorkers.isEmpty && p.activeWorkers.isEmpty))
    · simp
    · exact ih _

/-! ## The loop of `decreaseWorkerCountBy` -/

theorem decreaseBody_concat (p : Pool) (t : List Event) (xs : List Worker) (x : Worker)
    (h : p.inactiveWorkers = xs ++ [x]) :
    decreaseBody { pool := p, trace := t }
      = .ok { pool := { p with inactiveWorkers := xs },
              trace := t ++ decreaseBlock x } := by
  simp [decreaseBody, h, prevEnd_concat, setTerminate, lockActivator, setIsWorkReallyPosted,
    notifyOne, unlockActivator, joinThread, through, popBackInactive, Pool.workers,
    Pool.setWorkers, terminateEvents, decreaseBlock, Worker.toldToTerminate, bind,
    Except.bind]

theorem decreaseLoop_eq (n : Nat) : ∀ (p : Pool) (t : List Event),
    n ≤ p.inactiveWorkers.length →
    decreaseLoop n { pool := p, trace := t }
      = .ok { pool := { p with inactiveWorkers :=
                          p.inactiveWorkers.take (p.inactiveWorkers.length - n) },
              trace := t ++ decreaseEvents n p.inactiveWorkers } := by
  induction n with
  | zero => intro p t _; simp [decreaseLoop, decreaseEvents]
  | succ n ih =>
    intro p t h
    obtain ⟨xs, ys, q, a⟩ := p
    rcases eq_nil_or_snoc xs with rfl | ⟨xs, x, rfl⟩
    · simp at h
    · have hn : n ≤ xs.length := by simpa using h
      have hb := decreaseBody_concat ⟨xs ++ [x], ys, q, a⟩ t xs x rfl
      have hi := ih ⟨xs, ys, q, a⟩ (t ++ decreaseBlock x) hn
      simp only [decreaseLoop, hb, hi]
      have htake : List.take (xs.length - n) (xs ++ [x]) = List.take (xs.length - n) xs :=
        List.take_append_of_le_length (Nat.sub_le _ _)
      simp [decreaseEvents, htake]

theorem decreaseWorkerCountBy_eq (w n : Nat) (p : Pool) :
    decreaseWorkerCountBy w n p
      = .ok (min n (toWorkerCount w p.inactiveWorkers.length),
          { pool := { p with inactiveWorkers :=
                        (p.inactiveWorkers.take (p.inactiveWorkers.length
                          - min n (toWorkerCount w p.inactiveWorkers.length))) },
            trace := [Event.lock .inactiveWorkerContMutex]
              ++ decreaseEvents (min n (toWorkerCount w p.inactiveWorkers.length))
                  p.inactiveWorkers
              ++ [Event.unlock .inactiveWorkerContMutex] }) := by
  have hle : min n (toWorkerCount w p.inactiveWorkers.length) ≤ p.inactiveWorkers.length :=
    le_trans (min_le_right _ _) (Nat.mod_le _ _)
  simp [decreaseWorkerCountBy, emit, decreaseLoop_eq _ _ _ hle, bind, Except.bind, pure,
    Except.pure]

theorem toWorkerCount_of_lt (w n : Nat) (h : n < 2 ^ w) : toWorkerCount w n = n := by
  simp [toWorkerCount, Nat.mod_eq_of_lt h]

/-! ## The loop of `spawnWorkers` -/

theorem spawnLoop_spec (n : Nat) : ∀ (s : St),
    ∃ news : List Worker,
      (spawnLoop n s).pool.inactiveWorkers = s.pool.inactiveWorkers ++ news ∧
      news.length = n ∧ (∀ wk ∈ news, wk.isReallyInitialized = true) ∧
      (spawnLoop n s).pool.activeWorkers = s.pool.activeWorkers ∧
      (spawnLoop n s).pool.enqueuedWork = s.pool.enqueuedWork := by
  induction n with
  | zero => intro s; exact ⟨[], by simp [spawnLoop]⟩
  | succ n ih =>
    intro s
    obtain ⟨news, h1, h2, h3, h4, h5⟩ := ih (spawnBody s)
    refine ⟨awaitInitialized { Worker.create s.pool.allocated with
        iterator := some s.pool.inactiveWorkers.length } :: news, ?_, ?_, ?_, ?_, ?_⟩
    · show (spawnLoop n (spawnBody s)).pool.inactiveWorkers = _
      rw [h1]
      simp [spawnBody]
    · simp [h2]
    · intro wk hwk
      rcases List.mem_cons.1 hwk with rfl | hwk
      · simp [awaitInitialized, Worker.create]
      · exact h3 wk hwk
    · show (spawnLoop n (spawnBody s)).pool.activeWorkers = _
      rw [h4]
      simp [spawnBody]
    · show (spawnLoop n (spawnBody s)).pool.enqueuedWork = _
      rw [h5]
      simp [spawnBody]

/-! ## Properties that hold at every event of a trace -/

theorem occAll_nil (Q : List Event → Event → List Event → Prop) (acc rest : List Event) :
    OccAll Q acc [] rest := by
  intro pre e post h
  simp at h

theorem occAll_cons (Q : List Event → Event → List Event → Prop) (acc rest t : List Event)
    (e : Event) :
    OccAll Q acc (e :: t) rest ↔ Q acc e (t ++ rest) ∧ OccAll Q (acc ++ [e]) t rest := by
  constructor
  · intro h
    refine ⟨?_, ?_⟩
    · simpa using h [] e t rfl
    · intro pre e1 post ht
      have := h (e :: pre) e1 post (by simp [ht])
      simpa using this
  · rintro ⟨h0, h1⟩ pre e1 post ht
    cases pre with
    | nil =>
      simp at ht
      obtain ⟨rfl, rfl⟩ := ht
      simpa using h0
    | cons a pre =>
      simp at ht
      obtain ⟨rfl, rfl⟩ := ht
      simpa using h1 pre e1 post rfl

theorem occAll_append (Q : List Event → Event → List Event → Prop) (a : List Event) :
    ∀ (acc b rest : List Event),
    OccAll Q acc (a ++ b) rest ↔ OccAll Q acc a (b ++ rest) ∧ OccAll Q (acc ++ a) b rest := by
  induction a with
  | nil => intro acc b rest; simp [occAll_nil]
  | cons e a ih =>
    intro acc b rest
    simp only [List.cons_append, occAll_cons, ih, List.append_assoc, List.singleton_append]
    tauto

theorem occAll_rest_mono (Q : List Event → Event → List Event → Prop)
    (hQ : ∀ pre e post r, Q pre e post → Q pre e (post ++ r)) (acc t rest r : List Event)
    (h : OccAll Q acc t rest) : OccAll Q acc t (rest ++ r) := by
  intro pre e post ht
  have := hQ _ _ _ r (h pre e post ht)
  simpa [List.append_assoc] using this

theorem occAll_snoc (Q : List Event → Event → List Event → Prop)
    (hQ : ∀ pre e post r, Q pre e post → Q pre e (post ++ r)) (t b : List Event)
    (ht : OccAll Q [] t []) (hb : OccAll Q t b []) : OccAll Q [] (t ++ b) [] := by
  rw [occAll_append]
  refine ⟨?_, by simpa using hb⟩
  simpa using occAll_rest_mono Q hQ [] t [] b ht

theorem occAll_whole (Q : List Event → Event → List Event → Prop) (t : List Event)
    (h : OccAll Q [] t []) (pre : List Event) (e : Event) (post : List Event)
    (ht : t = pre ++ e :: post) : Q pre e post := by
  simpa using h pre e post ht

theorem held_append (a b : List Event) : held (a ++ b) = heldFrom (held a) b := by
  simp [held, heldFrom, List.foldl_append]

/-! ## Invariants of the event sequences -/

theorem joinAllEvents_inv (I : List Event → Prop)
    (hsnap : ∀ t, I t → I (t ++ snapshotEvents))
    (hdrain : ∀ t c i, I t → I (t ++ drainEvents c i)) (n : Nat) :
    ∀ (xs ys : List Worker) (t : List Event), I t → I (t ++ joinAllEvents n xs ys) := by
  have hlast : ∀ t c (l : List Worker), I t → I (t ++ drainLast c l) := by
    intro t c l ht
    unfold drainLast
    cases l.getLast? with
    | none => simpa using ht
    | some x => exact hdrain t c x ht
  induction n with
  | zero => intro xs ys t ht; simpa [joinAllEvents] using ht
  | succ n ih =>
    intro xs ys t ht
    simp only [joinAllEvents]
    split
    · exact hsnap t ht
    · have h1 := hlast _ .active ys (hlast _ .inactive xs (hsnap t ht))
      have h2 := ih xs.dropLast ys.dropLast _ h1
      simpa [List.append_assoc] using h2

theorem decreaseEvents_inv (I : List Event → Prop)
    (hblock : ∀ t i, I t → I (t ++ decreaseBlock i)) (n : Nat) :
    ∀ (xs : List Worker) (t : List Event), I t → I (t ++ decreaseEvents n xs) := by
  induction n with
  | zero => intro xs t ht; simpa [decreaseEvents] using ht
  | succ n ih =>
    intro xs t ht
    simp only [decreaseEvents]
    cases xs.getLast? with
    | none => simpa using ht
    | some x =>
      have h2 := ih xs.dropLast _ (hblock t x ht)
      simpa [List.append_assoc] using h2

/-- Every event of a `joinAll` trace satisfies `Q`, when the events of each block do,
given that no mutex is held where the block starts. -/
theorem joinAllEvents_occAll (Q : List Event → Event → List Event → Prop)
    (hQ : ∀ pre e post r, Q pre e post → Q pre e (post ++ r))
    (hsnap : ∀ t, held t = [] → OccAll Q t snapshotEvents [])
    (hdrain : ∀ t c i, held t = [] → OccAll Q t (drainEvents c i) [])
    (n : Nat) (xs ys : List Worker) : OccAll Q [] (joinAllEvents n xs ys) [] := by
  have := joinAllEvents_inv (fun t => OccAll Q [] t [] ∧ held t = []) ?_ ?_ n xs ys []
    ⟨occAll_nil _ _ _, rfl⟩
  · simpa using this.1
  · rintro t ⟨h1, h2⟩
    refine ⟨occAll_snoc Q hQ _ _ h1 (hsnap t h2), ?_⟩
    simp [held_append, h2, snapshotEvents, heldFrom, heldStep]
  · rintro t c i ⟨h1, h2⟩
    refine ⟨occAll_snoc Q hQ _ _ h1 (hdrain t c i h2), ?_⟩
    cases c <;>
      simp [held_append, h2, drainEvents, terminateEvents, heldFrom, heldStep, Coll.mutex]

/-- Every event of a `decreaseWorkerCountBy` trace satisfies `Q`, when the events of each
block do, given that the inactive-collection mutex alone is held where the block starts. -/
theorem decreaseEvents_occAll (Q : List Event → Event → List Event → Prop)
    (hQ : ∀ pre e post r, Q pre e post → Q pre e (post ++ r))
    (hlock : OccAll Q [] [Event.lock .inactiveWorkerContMutex] [])
    (hblock : ∀ t i, held t = [Mutex.inactiveWorkerContMutex] →
      OccAll Q t (decreaseBlock i) [])
    (hunlock : ∀ t, held t = [Mutex.inactiveWorkerContMutex] →
      OccAll Q t [Event.unlock .inactiveWorkerContMutex] [])
    (n : Nat) (xs : List Worker) :
    OccAll Q [] ([Event.lock .inactiveWorkerContMutex] ++ decreaseEvents n xs
      ++ [Event.unlock .inactiveWorkerContMutex]) [] := by
  have := decreaseEvents_inv
    (fun t => OccAll Q [] t [] ∧ held t = [Mutex.inactiveWorkerContMutex]) ?_ n xs
    [Event.lock .inactiveWorkerContMutex] ⟨hlock, by simp [held, heldFrom, heldStep]⟩
  · exact occAll_snoc Q hQ _ _ this.1 (hunlock _ this.2)
  · rintro t i ⟨h1, h2⟩
    refine ⟨occAll_snoc Q hQ _ _ h1 (hblock t i h2), ?_⟩
    simp [held_append, h2, decreaseBlock, terminateEvents, heldFrom, heldStep]

/-! ## The four properties on the blocks -/

theorem joinUnlocked_mono (pre : List Event) (e : Event) (post r : List Event)
    (h : JoinUnlocked pre e post) : JoinUnlocked pre e (post ++ r) := by
  intro i hi
  obtain ⟨h1, h2, c, wk, post1, hwk, rfl⟩ := h i hi
  exact ⟨h1, h2, c, wk, post1 ++ r, hwk, by simp⟩

theorem joinAllEvents_joinUnlocked (n : Nat) (xs ys : List Worker) :
    OccAll JoinUnlocked [] (joinAllEvents n xs ys) [] := by
  apply joinAllEvents_occAll JoinUnlocked joinUnlocked_mono
  · intro t _
    simp [snapshotEvents, occAll_cons, occAll_nil, JoinUnlocked]
  · intro t c i h2
    simp [drainEvents, terminateEvents, occAll_cons, occAll_nil, JoinUnlocked, held_append, h2,
      heldFrom, heldStep]
    refine ⟨c, i.toldToTerminate, ?_⟩
    simp [Worker.toldToTerminate]

theorem joinUnderInactiveLock_mono (pre : List Event) (e : Event) (post r : List Event)
    (h : JoinUnderInactiveLock pre e post) : JoinUnderInactiveLock pre e (post ++ r) := by
  intro i hi
  obtain ⟨h1, wk, post1, hwk, rfl⟩ := h i hi
  exact ⟨h1, wk, post1 ++ r, hwk, by simp⟩

theorem decreaseEvents_joinUnderInactiveLock (n : Nat) (xs : List Worker) :
    OccAll JoinUnderInactiveLock [] ([Event.lock .inactiveWorkerContMutex]
      ++ decreaseEvents n xs ++ [Event.unlock .inactiveWorkerContMutex]) [] := by
  apply decreaseEvents_occAll JoinUnderInactiveLock joinUnderInactiveLock_mono
  · simp [occAll_cons, occAll_nil, JoinUnderInactiveLock]
  · intro t i h2
    simp [decreaseBlock, terminateEvents, occAll_cons, occAll_nil, JoinUnderInactiveLock,
      held_append, h2, heldFrom, heldStep, Worker.toldToTerminate]
  · intro t _
    simp [occAll_cons, occAll_nil, JoinUnderInactiveLock]

theorem decreaseEvents_heldAfterEntry (n : Nat) (xs : List Worker) :
    OccAll HeldAfterEntry [] ([Event.lock .inactiveWorkerContMutex]
      ++ decreaseEvents n xs ++ [Event.unlock .inactiveWorkerContMutex]) [] := by
  apply decreaseEvents_occAll HeldAfterEntry (fun _ _ _ _ h => h)
  · simp [occAll_cons, occAll_nil, HeldAfterEntry]
  · intro t i h2
    simp [decreaseBlock, terminateEvents, occAll_cons, occAll_nil, HeldAfterEntry,
      held_append, h2, heldFrom, heldStep]
  · intro t h2
    simp [occAll_cons, occAll_nil, HeldAfterEntry, h2]

theorem flagWrites_mono (pre : List Event) (e : Event) (post r : List Event)
    (h : FlagWrites pre e post) : FlagWrites pre e (post ++ r) := by
  refine ⟨h.1, ?_⟩
  intro i hi
  obtain ⟨h1, post1, rfl⟩ := h.2 i hi
  exact ⟨h1, post1 ++ r, by simp⟩

theorem joinAllEvents_flagWrites (n : Nat) (xs ys : List Worker) :
    OccAll FlagWrites [] (joinAllEvents n xs ys) [] := by
  apply joinAllEvents_occAll FlagWrites flagWrites_mono
  · intro t _
    simp [snapshotEvents, occAll_cons, occAll_nil, FlagWrites]
  · intro t c i h2
    simp [drainEvents, terminateEvents, occAll_cons, occAll_nil, FlagWrites, held_append, h2,
      heldFrom, heldStep]

theorem decreaseEvents_flagWrites (n : Nat) (xs : List Worker) :
    OccAll FlagWrites [] ([Event.lock .inactiveWorkerContMutex]
      ++ decreaseEvents n xs ++ [Event.unlock .inactiveWorkerContMutex]) [] := by
  apply decreaseEvents_occAll FlagWrites flagWrites_mono
  · simp [occAll_cons, occAll_nil, FlagWrites]
  · intro t i h2
    simp [decreaseBlock, terminateEvents, occAll_cons, occAll_nil, FlagWrites,
      held_append, h2, heldFrom, heldStep]
  · intro t _
    simp [occAll_cons, occAll_nil, FlagWrites]

theorem joinAllEvents_terminatedThenErased (n : Nat) (xs ys : List Worker) :
    OccAll TerminatedThenErased [] (joinAllEvents n xs ys) [] := by
  apply joinAllEvents_occAll TerminatedThenErased (fun _ _ _ _ h => h)
  · intro t _
    simp [snapshotEvents, occAll_cons, occAll_nil, TerminatedThenErased]
  · intro t c i h2
    simp [drainEvents, terminateEvents, occAll_cons, occAll_nil, TerminatedThenErased,
      held_append, h2, heldFrom, heldStep, Worker.toldToTerminate]
    exact ⟨t, [Event.lock c.mutex], by simp, Or.inr rfl⟩

theorem decreaseEvents_terminatedThenErased (n : Nat) (xs : List Worker) :
    OccAll TerminatedThenErased [] ([Event.lock .inactiveWorkerContMutex]
      ++ decreaseEvents n xs ++ [Event.unlock .inactiveWorkerContMutex]) [] := by
  apply decreaseEvents_occAll TerminatedThenErased (fun _ _ _ _ h => h)
  · simp [occAll_cons, occAll_nil, TerminatedThenErased]
  · intro t i h2
    simp [decreaseBlock, terminateEvents, occAll_cons, occAll_nil, TerminatedThenErased,
      held_append, h2, heldFrom, heldStep, Worker.toldToTerminate]
    exact ⟨t, [], by simp, Or.inl rfl⟩
  · intro t _
    simp [occAll_cons, occAll_nil, TerminatedThenErased]

/-! ## Membership of `join` events -/

theorem join_mem_drainLast (c : Coll) (xs : List Worker) (x : Worker) :
    Event.join x.id ∈ drainLast c (xs ++ [x]) := by
  simp [drainLast, drainEvents, terminateEvents]

theorem join_mem_joinAllEvents (n : Nat) : ∀ (xs ys : List Worker),
    max xs.length ys.length < n →
    (∀ wk ∈ xs, Event.join wk.id ∈ joinAllEvents n xs ys) ∧
    (∀ wk ∈ ys, Event.join wk.id ∈ joinAllEvents n xs ys) := by
  induction n with
  | zero => intro xs ys h; omega
  | succ n ih =>
    intro xs ys h
    by_cases hxy : xs = [] ∧ ys = []
    · obtain ⟨rfl, rfl⟩ := hxy
      simp
    · have hlen : max xs.dropLast.length ys.dropLast.length < n := by
        simp only [max_lt_iff, List.length_dropLast] at h ⊢
        have hpos : 0 < xs.length ∨ 0 < ys.length := by
          cases xs <;> cases ys <;> simp_all
        omega
      obtain ⟨ihx, ihy⟩ := ih xs.dropLast ys.dropLast hlen
      simp only [joinAllEvents, hxy, if_false]
      constructor
      · intro wk hwk
        rcases eq_nil_or_snoc xs with rfl | ⟨xs1, x, rfl⟩
        · simp at hwk
        · rcases List.mem_append.1 hwk with h1 | h1
          · have := ihx wk (by simpa using h1)
            simp only [List.dropLast_concat] at this
            simp [this]
          · have hx : wk = x := by simpa using h1
            subst hx
            have := join_mem_drainLast .inactive xs1 wk
            simp [this]
      · intro wk hwk
        rcases eq_nil_or_snoc ys with rfl | ⟨ys1, y, rfl⟩
        · simp at hwk
        · rcases List.mem_append.1 hwk with h1 | h1
          · have := ihy wk (by simpa using h1)
            simp only [List.dropLast_concat] at this
            simp [this]
          · have hy : wk = y := by simpa using h1
            subst hy
            have := join_mem_drainLast .active ys1 wk
            simp [this]

/-! ## Workers removed by a trace -/

theorem erased_append (c : Coll) (a b : List Event) :
    erased c (a ++ b) = erased c a ++ erased c b := by
  simp [erased, List.filterMap_append]

theorem erased_snapshotEvents (c : Coll) : erased c snapshotEvents = [] := by
  simp [erased, snapshotEvents]

theorem erased_drainLast_concat (c : Coll) (xs : List Worker) (x : Worker) :
    erased c (drainLast c (xs ++ [x])) = [x.toldToTerminate] := by
  simp [erased, drainLast, drainEvents, terminateEvents]

theorem erased_drainLast_nil (c d : Coll) : erased c (drainLast d []) = [] := by
  simp [erased, drainLast]

theorem erased_drainLast_other (c d : Coll) (h : d ≠ c) (l : List Worker) :
    erased c (drainLast d l) = [] := by
  unfold drainLast
  cases l.getLast? with
  | none => simp [erased]
  | some x => simp [erased, drainEvents, terminateEvents, h]

theorem erased_joinAllEvents (n : Nat) : ∀ (xs ys : List Worker),
    max xs.length ys.length < n →
    erased .inactive (joinAllEvents n xs ys) = xs.reverse.map Worker.toldToTerminate ∧
    erased .active (joinAllEvents n xs ys) = ys.reverse.map Worker.toldToTerminate := by
  induction n with
  | zero => intro xs ys h; omega
  | succ n ih =>
    intro xs ys h
    by_cases hxy : xs = [] ∧ ys = []
    · obtain ⟨rfl, rfl⟩ := hxy
      simp [joinAllEvents, erased_snapshotEvents]
    · have hlen : max xs.dropLast.length ys.dropLast.length < n := by
        simp only [max_lt_iff, List.length_dropLast] at h ⊢
        have hpos : 0 < xs.length ∨ 0 < ys.length := by
          cases xs <;> cases ys <;> simp_all
        omega
      obtain ⟨ihx, ihy⟩ := ih xs.dropLast ys.dropLast hlen
      simp only [joinAllEvents, hxy, if_false, erased_append, erased_snapshotEvents, ihx, ihy,
        List.nil_append]
      constructor
      · rw [erased_drainLast_other .inactive .active (by decide)]
        rcases eq_nil_or_snoc xs with rfl | ⟨xs1, x, rfl⟩
        · simp [erased_drainLast_nil]
        · simp [erased_drainLast_concat]
      · rw [erased_drainLast_other .active .inactive (by decide)]
        rcases eq_nil_or_snoc ys with rfl | ⟨ys1, y, rfl⟩
        · simp [erased_drainLast_nil]
        · simp [erased_drainLast_concat]

theorem erased_decreaseEvents (n : Nat) : ∀ (xs : List Worker), n ≤ xs.length →
    erased .inactive (decreaseEvents n xs)
      = (xs.drop (xs.length - n)).reverse.map Worker.toldToTerminate ∧
    erased .active (decreaseEvents n xs) = [] := by
  induction n with
  | zero => intro xs _; simp [decreaseEvents, erased]
  | succ n ih =>
    intro xs h
    rcases eq_nil_or_snoc xs with rfl | ⟨xs1, x, rfl⟩
    · simp at h
    · have hn : n ≤ xs1.length := by simpa using h
      obtain ⟨ih1, ih2⟩ := ih xs1 hn
      have hdrop : List.drop (xs1.length - n) (xs1 ++ [x])
          = List.drop (xs1.length - n) xs1 ++ [x] :=
        List.drop_append_of_le_length (Nat.sub_le _ _)
      constructor
      · simp only [decreaseEvents, List.getLast?_concat, List.dropLast_concat, erased_append,
          ih1]
        simp [erased, decreaseBlock, terminateEvents, hdrop]
      · simp only [decreaseEvents, List.getLast?_concat, List.dropLast_concat, erased_append,
          ih2]
        simp [erased, decreaseBlock, terminateEvents]

theorem decreaseEvents_no_collection_mutex (n : Nat) (xs : List Worker) :
    ∀ e ∈ decreaseEvents n xs, e.onCollectionMutex = false := by
  have := decreaseEvents_inv (fun t => ∀ e ∈ t, e.onCollectionMutex = false) ?_ n xs []
    (by simp)
  · simpa using this
  · intro t x ht e he
    rcases List.mem_append.1 he with h | h
    · exact ht e h
    · simp [decreaseBlock, terminateEvents] at h
      rcases h with rfl | rfl | rfl | rfl | rfl | rfl | rfl <;> rfl

/-! ## Claims -/

/-- Counterexample to C1 as stated: with an 8-bit `WorkerCountType`, on a pool with 300
inactive workers `decreaseWorkerCountBy(255)` returns 44 and leaves 256 inactive
workers, where `min 255 300 = 255` and `300 - 255 = 45`. -/
theorem decreaseWorkerCountBy_truncates_count :
    poolManyIdle.inactiveWorkers.length = 300 ∧ min 255 300 = 255 ∧
    ∃ s, decreaseWorkerCountBy 8 255 poolManyIdle = .ok (44, s) ∧
      s.pool.inactiveWorkers.length = 256 := by
  have hl : poolManyIdle.inactiveWorkers.length = 300 := by simp [poolManyIdle]
  have hk : min 255 (toWorkerCount 8 300) = 44 := by decide
  have h := decreaseWorkerCountBy_eq 8 255 poolManyIdle
  rw [hl, hk] at h
  exact ⟨hl, by decide, _, h, by simp [hl]⟩

/-- C1, amended: on a pool with `m` inactive workers `decreaseWorkerCountBy(n)` returns
`min n m1`, where `m1` is `m` converted to `WorkerCountType` (`m mod 2 ^ w`), and leaves
`m - min n m1` inactive workers, so the returned value is the number of workers removed;
it is `min n m` whenever `m` is a value of `WorkerCountType`, and 0 when no worker is
inactive. -/
theorem decreaseWorkerCountBy_returns_min (w n : Nat) (p : Pool) :
    ∃ k s, decreaseWorkerCountBy w n p = .ok (k, s) ∧
      k = min n (toWorkerCount w p.inactiveWorkers.length) ∧
      s.pool.inactiveWorkers.length = p.inactiveWorkers.length - k ∧
      k + s.pool.inactiveWorkers.length = p.inactiveWorkers.length ∧
      (p.inactiveWorkers.length < 2 ^ w → k = min n p.inactiveWorkers.length) ∧
      (p.inactiveWorkers = [] → k = 0) := by
  have hle : min n (toWorkerCount w p.inactiveWorkers.length) ≤ p.inactiveWorkers.length :=
    le_trans (min_le_right _ _) (Nat.mod_le _ _)
  refine ⟨_, _, decreaseWorkerCountBy_eq w n p, rfl, ?_, ?_, ?_, ?_⟩
  · simp
  · simp only [List.length_take]
    omega
  · intro hm
    rw [toWorkerCount_of_lt w _ hm]
  · intro h0
    simp [h0, toWorkerCount]

/-- Witness of C1: three workers requested from a pool with one inactive worker. -/
theorem decreaseWorkerCountBy_returns_min_witness :
    ∃ k s, decreaseWorkerCountBy 32 3 poolOneOne = .ok (k, s) ∧
      k = min 3 (toWorkerCount 32 poolOneOne.inactiveWorkers.length) ∧
      s.pool.inactiveWorkers.length = poolOneOne.inactiveWorkers.length - k ∧
      k + s.pool.inactiveWorkers.length = poolOneOne.inactiveWorkers.length ∧
      k = min 3 poolOneOne.inactiveWorkers.length := by
  obtain ⟨k, s, h1, h2, h3, h4, h5, _⟩ := decreaseWorkerCountBy_returns_min 32 3 poolOneOne
  exact ⟨k, s, h1, h2, h3, h4, h5 (by decide)⟩

/-- Counterexample to C5 as stated: with an 8-bit `WorkerCountType`, on a pool with 300
inactive workers `decreaseWorkerCountBy(255)` does not leave the first
`300 - min 255 300` workers: 256 workers remain. -/
theorem decreaseWorkerCountBy_keeps_more :
    ∃ k s, decreaseWorkerCountBy 8 255 poolManyIdle = .ok (k, s) ∧
      s.pool.inactiveWorkers.length = 256 ∧
      s.pool.inactiveWorkers ≠ poolManyIdle.inactiveWorkers.take
        (poolManyIdle.inactiveWorkers.length - min 255 poolManyIdle.inactiveWorkers.length) := by
  have hl : poolManyIdle.inactiveWorkers.length = 300 := by simp [poolManyIdle]
  have hk : min 255 (toWorkerCount 8 300) = 44 := by decide
  have h := decreaseWorkerCountBy_eq 8 255 poolManyIdle
  rw [hl, hk] at h
  refine ⟨_, _, h, by simp [hl], ?_⟩
  intro h1
  have h2 := congrArg List.length h1
  simp [hl] at h2

/-- C5, amended: `decreaseWorkerCountBy(n)` leaves the active collection and the work
queue as they were, for every pool; the inactive collection afterwards is the original
one without its last `min n m1` workers, `m1` being `m` converted to `WorkerCountType`
(`m mod 2 ^ w`), which is `min n m` workers whenever `m` is a value of that type. -/
theorem decreaseWorkerCountBy_frame (w n : Nat) (p : Pool) :
    ∃ k s, decreaseWorkerCountBy w n p = .ok (k, s) ∧
      s.pool.activeWorkers = p.activeWorkers ∧
      s.pool.enqueuedWork = p.enqueuedWork ∧
      erased .active s.trace = [] ∧
      s.pool.inactiveWorkers = p.inactiveWorkers.take
        (p.inactiveWorkers.length - min n (toWorkerCount w p.inactiveWorkers.length)) ∧
      (p.inactiveWorkers.length < 2 ^ w →
        s.pool.inactiveWorkers = p.inactiveWorkers.take
          (p.inactiveWorkers.length - min n p.inactiveWorkers.length)) := by
  have hle : min n (toWorkerCount w p.inactiveWorkers.length) ≤ p.inactiveWorkers.length :=
    le_trans (min_le_right _ _) (Nat.mod_le _ _)
  refine ⟨_, _, decreaseWorkerCountBy_eq w n p, rfl, rfl, ?_, rfl, ?_⟩
  · show erased .active ([Event.lock .inactiveWorkerContMutex] ++ decreaseEvents _ _
      ++ [Event.unlock .inactiveWorkerContMutex]) = []
    rw [erased_append, erased_append, (erased_decreaseEvents _ _ hle).2]
    simp [erased]
  · intro hm
    simp [toWorkerCount_of_lt w _ hm]

/-- Witness of C5: one worker removed from a pool with two inactive workers. -/
theorem decreaseWorkerCountBy_frame_witness :
    ∃ k s, decreaseWorkerCountBy 32 1 poolTwoIdle = .ok (k, s) ∧
      s.pool.activeWorkers = [] ∧
      s.pool.inactiveWorkers = [Worker.idle 3 0] := by
  obtain ⟨k, s, h1, h2, _, _, _, h6⟩ := decreaseWorkerCountBy_frame 32 1 poolTwoIdle
  exact ⟨k, s, h1, h2, h6 (by decide)⟩

/-- C2: with enough passes allowed, `joinAll` returns; both collections are then empty
and the thread of every worker that was in either collection has been joined. -/
theorem joinAll_drains (p : Pool) (fuel : Nat)
    (h : max p.inactiveWorkers.length p.activeWorkers.length < fuel) :
    ∃ s, joinAll fuel p = .ok s ∧
      s.pool.inactiveWorkers = [] ∧ s.pool.activeWorkers = [] ∧
      (∀ w, getInactiveWorkerCount w s.pool = 0 ∧ getActiveWorkerCount w s.pool = 0) ∧
      (∀ wk ∈ p.inactiveWorkers, Event.join wk.id ∈ s.trace) ∧
      (∀ wk ∈ p.activeWorkers, Event.join wk.id ∈ s.trace) := by
  refine ⟨_, joinAll_eq p fuel h, rfl, rfl, ?_, ?_, ?_⟩
  · intro w
    simp [getInactiveWorkerCount, getActiveWorkerCount, toWorkerCount]
  · exact (join_mem_joinAllEvents fuel _ _ h).1
  · exact (join_mem_joinAllEvents fuel _ _ h).2

/-- Witness of C2: a pool with one inactive and one active worker, two passes allowed. -/
theorem joinAll_drains_witness :
    max poolOneOne.inactiveWorkers.length poolOneOne.activeWorkers.length < 2 ∧
    ∃ s, joinAll 2 poolOneOne = .ok s ∧
      s.pool.inactiveWorkers = [] ∧ s.pool.activeWorkers = [] ∧
      (∀ w, getInactiveWorkerCount w s.pool = 0 ∧ getActiveWorkerCount w s.pool = 0) ∧
      (∀ wk ∈ poolOneOne.inactiveWorkers, Event.join wk.id ∈ s.trace) ∧
      (∀ wk ∈ poolOneOne.activeWorkers, Event.join wk.id ∈ s.trace) :=
  ⟨by decide, joinAll_drains poolOneOne 2 (by decide)⟩

/-- C7: `joinAll` never dereferences a handle that designates no worker; on a pool whose
collections are both empty it leaves the loop in its first pass, emits only the four
lock and unlock events of the snapshot and changes nothing; a second `joinAll` after a
first one leaves the state of the first. -/
theorem joinAll_idempotent (p : Pool) (fuel : Nat) :
    joinAll fuel p ≠ .error .invalidIterator ∧
    joinAll 1 { p with inactiveWorkers := [], activeWorkers := [] }
      = .ok { pool := { p with inactiveWorkers := [], activeWorkers := [] },
              trace := [Event.lock .activeWorkerContMutex, Event.lock .inactiveWorkerContMutex,
                        Event.unlock .activeWorkerContMutex,
                        Event.unlock .inactiveWorkerContMutex] } ∧
    ∃ s1, joinAll (joinAllPasses p) p = .ok s1 ∧
      ∃ s2, joinAll 1 s1.pool = .ok s2 ∧ s2.pool = s1.pool := by
  refine ⟨joinAllLoop_ne_invalidIterator fuel _, ?_, ?_⟩
  · rw [joinAll_eq _ 1 (by simp)]
    simp [joinAllEvents, snapshotEvents]
  · refine ⟨_, joinAll_eq p (joinAllPasses p) (by simp [joinAllPasses]), ?_⟩
    refine ⟨_, joinAll_eq _ 1 (by simp), ?_⟩
    simp

/-- The assertion of line 139 when the sum does not overflow: it holds exactly when the
collection is not empty or the request is not zero. -/
theorem spawnAssertion_of_no_overflow (w size n : Nat) (h : size + n < 2 ^ w) :
    spawnAssertion w size n = decide (0 < size ∨ 0 < n) := by
  simp only [spawnAssertion, toWorkerCount, Nat.mod_eq_of_lt h]
  rcases Nat.eq_zero_or_pos size with h0 | h0 <;>
  rcases Nat.eq_zero_or_pos n with h1 | h1 <;> simp [h0, h1]

/-- C3: on an empty inactive collection a request for zero workers fails the assertion of
line 139, for every width of `WorkerCountType`: `Pool(0)` and `increaseWorkerCountBy(0)`
on an empty pool abort. -/
theorem spawnWorkers_zero_on_empty_aborts (w : Nat) :
    spawnAssertion w 0 0 = false ∧
    Pool.construct w 0 = .error .assertionFailed ∧
    increaseWorkerCountBy w 0 Pool.empty = .error .assertionFailed := by
  have h : spawnAssertion w 0 0 = false := by
    simp [spawnAssertion, toWorkerCount]
  refine ⟨h, ?_, ?_⟩
  · simp [Pool.construct, spawnWorkers, Pool.empty, h]
  · simp [increaseWorkerCountBy, spawnWorkers, Pool.empty, emit, h, bind, Except.bind]

/-- C6: when the inactive count and the request are values of the `w`-bit type and their
sum exceeds `2 ^ w - 1`, the assertion of line 139 fails and the request is rejected. -/
theorem spawnWorkers_rejects_overflow (w size n : Nat) (hs : size < 2 ^ w) (hn : n < 2 ^ w)
    (ho : 2 ^ w - 1 < size + n) :
    spawnAssertion w size n = false ∧
    ∀ p : Pool, p.inactiveWorkers.length = size →
      increaseWorkerCountBy w n p = .error .assertionFailed ∧
      ∀ t, spawnWorkers w n { pool := p, trace := t } = .error .assertionFailed := by
  have hpos : 0 < 2 ^ w := by positivity
  have hge : 2 ^ w ≤ size + n := by omega
  have hmod : (size + n) % 2 ^ w = size + n - 2 ^ w := by
    rw [Nat.mod_eq_sub_mod hge, Nat.mod_eq_of_lt (by omega)]
  have h : spawnAssertion w size n = false := by
    simp only [spawnAssertion, toWorkerCount, hmod]
    simp only [Bool.or_eq_false_iff, decide_eq_false_iff_not]
    constructor <;> omega
  refine ⟨h, ?_⟩
  intro p hp
  subst hp
  constructor
  · simp [increaseWorkerCountBy, spawnWorkers, emit, h, bind, Except.bind]
  · intro t
    simp [spawnWorkers, h]

/-- Witness of C6: `2 ^ 32 - 1` inactive workers and a request for one more. -/
theorem spawnWorkers_rejects_overflow_witness :
    4294967295 < 2 ^ 32 ∧ 1 < 2 ^ 32 ∧ 2 ^ 32 - 1 < 4294967295 + 1 ∧
    spawnAssertion 32 4294967295 1 = false :=
  ⟨by decide, by decide, by decide,
   (spawnWorkers_rejects_overflow 32 4294967295 1 (by decide) (by decide) (by decide)).1⟩

/-- C4: when the assertion of line 139 passes, `increaseWorkerCountBy(n)` returns with
`m + n` inactive workers, the first `m` being the original ones in their order and the
last `n` having completed the initialization handshake, and the active collection is
unchanged; on the empty pool the constructor yields `n` inactive and no active worker. -/
theorem increaseWorkerCountBy_appends (w n : Nat) (p : Pool) (hn : n < 2 ^ w)
    (ha : spawnAssertion w p.inactiveWorkers.length n = true) :
    (∃ s, increaseWorkerCountBy w n p = .ok s ∧
      s.pool.inactiveWorkers.length = p.inactiveWorkers.length + n ∧
      s.pool.inactiveWorkers.take p.inactiveWorkers.length = p.inactiveWorkers ∧
      (∀ wk ∈ s.pool.inactiveWorkers.drop p.inactiveWorkers.length,
        wk.isReallyInitialized = true) ∧
      s.pool.activeWorkers = p.activeWorkers ∧ s.pool.enqueuedWork = p.enqueuedWork) ∧
    (p = Pool.empty → ∃ s, Pool.construct w n = .ok s ∧
      getInactiveWorkerCount w s.pool = n ∧ getActiveWorkerCount w s.pool = 0) := by
  constructor
  · obtain ⟨news, h1, h2, h3, h4, h5⟩ :=
      spawnLoop_spec n (emit (.lock .inactiveWorkerContMutex) { pool := p, trace := [] })
    refine ⟨emit (.unlock .inactiveWorkerContMutex)
      (spawnLoop n (emit (.lock .inactiveWorkerContMutex) { pool := p, trace := [] })),
      ?_, ?_, ?_, ?_, ?_, ?_⟩
    · have ha1 : spawnAssertion w
          (emit (.lock .inactiveWorkerContMutex)
            { pool := p, trace := [] }).pool.inactiveWorkers.length n = true := ha
      simp [increaseWorkerCountBy, spawnWorkers, ha1, bind, Except.bind, pure, Except.pure]
    · simp [emit] at h1 ⊢
      simp [h1, h2]
    · simp [emit] at h1 ⊢
      simp [h1]
    · simp [emit] at h1 ⊢
      simpa [h1] using h3
    · simpa [emit] using h4
    · simpa [emit] using h5
  · intro hp
    subst hp
    obtain ⟨news, h1, h2, _, h4, _⟩ := spawnLoop_spec n { pool := Pool.empty, trace := [] }
    have ha1 : spawnAssertion w
        ({ pool := Pool.empty, trace := [] } : St).pool.inactiveWorkers.length n = true := ha
    refine ⟨spawnLoop n { pool := Pool.empty, trace := [] }, ?_, ?_, ?_⟩
    · simp [Pool.construct, spawnWorkers, ha1]
    · rw [getInactiveWorkerCount, h1]
      simp [Pool.empty, h2, toWorkerCount_of_lt w n hn]
    · rw [getActiveWorkerCount, h4]
      simp [Pool.empty, toWorkerCount]

/-- Witness of C4: two workers added to the empty pool. -/
theorem increaseWorkerCountBy_appends_witness :
    2 < 2 ^ 32 ∧ spawnAssertion 32 Pool.empty.inactiveWorkers.length 2 = true ∧
    (∃ s, increaseWorkerCountBy 32 2 Pool.empty = .ok s ∧
      s.pool.inactiveWorkers.length = Pool.empty.inactiveWorkers.length + 2 ∧
      s.pool.inactiveWorkers.take Pool.empty.inactiveWorkers.length
        = Pool.empty.inactiveWorkers ∧
      (∀ wk ∈ s.pool.inactiveWorkers.drop Pool.empty.inactiveWorkers.length,
        wk.isReallyInitialized = true) ∧
      s.pool.activeWorkers = Pool.empty.activeWorkers ∧
      s.pool.enqueuedWork = Pool.empty.enqueuedWork) ∧
    (∃ s, Pool.construct 32 2 = .ok s ∧
      getInactiveWorkerCount 32 s.pool = 2 ∧ getActiveWorkerCount 32 s.pool = 0) :=
  ⟨by decide, by decide,
   (increaseWorkerCountBy_appends 32 2 Pool.empty (by decide) (by decide)).1,
   (increaseWorkerCountBy_appends 32 2 Pool.empty (by decide) (by decide)).2 rfl⟩

/-- Counterexample to C8 as stated: in `decreaseWorkerCountBy(1)` on a pool with one
inactive worker, the inactive-collection mutex is held when the thread is joined. -/
theorem decreaseWorkerCountBy_joins_under_lock :
    ∃ s post, decreaseWorkerCountBy 32 1 poolOneOne = .ok (1, s) ∧
      s.trace = [Event.lock .inactiveWorkerContMutex, Event.setTerminate 7,
                 Event.lock (.activatorMutex 7), Event.setIsWorkReallyPosted 7,
                 Event.notifyOne 7, Event.unlock (.activatorMutex 7)]
                ++ Event.join 7 :: post ∧
      Mutex.inactiveWorkerContMutex ∈
        held [Event.lock .inactiveWorkerContMutex, Event.setTerminate 7,
              Event.lock (.activatorMutex 7), Event.setIsWorkReallyPosted 7,
              Event.notifyOne 7, Event.unlock (.activatorMutex 7)] :=
  ⟨_, [Event.erase .inactive (Worker.idle 7 0).toldToTerminate,
       Event.unlock .inactiveWorkerContMutex], rfl, rfl, by decide⟩

/-- C8, amended: in `joinAll` no collection mutex is held at a `join`, and the collection
is locked again right after it to erase the worker.  In `decreaseWorkerCountBy` the
inactive-collection mutex is locked as the first step and unlocked as the last one, no
collection mutex is locked or unlocked in between, so that every later step is made with
it held; at every `join` it is the one mutex held, and the very next step erases the
joined worker from the inactive collection. -/
theorem join_collection_locks (w n : Nat) (p : Pool) :
    (∃ s, joinAll (joinAllPasses p) p = .ok s ∧
      ∀ pre i post, s.trace = pre ++ Event.join i :: post →
        Mutex.inactiveWorkerContMutex ∉ held pre ∧ Mutex.activeWorkerContMutex ∉ held pre ∧
        ∃ c wk post1, wk.id = i ∧
          post = Event.lock c.mutex :: Event.erase c wk :: Event.unlock c.mutex :: post1) ∧
    (∃ k s body, decreaseWorkerCountBy w n p = .ok (k, s) ∧
      s.trace = Event.lock .inactiveWorkerContMutex :: body
        ++ [Event.unlock .inactiveWorkerContMutex] ∧
      (∀ e ∈ body, e.onCollectionMutex = false) ∧
      (∀ pre e post, s.trace = pre ++ e :: post →
        pre = [] ∨ Mutex.inactiveWorkerContMutex ∈ held pre) ∧
      (∀ pre i post, s.trace = pre ++ Event.join i :: post →
        held pre = [Mutex.inactiveWorkerContMutex] ∧
        ∃ wk post1, wk.id = i ∧ post = Event.erase .inactive wk :: post1)) := by
  constructor
  · refine ⟨_, joinAll_eq p (joinAllPasses p) (by simp [joinAllPasses]), ?_⟩
    intro pre i post ht
    exact occAll_whole _ _ (joinAllEvents_joinUnlocked _ _ _) pre _ post ht i rfl
  · refine ⟨_, _, decreaseEvents (min n (toWorkerCount w p.inactiveWorkers.length))
      p.inactiveWorkers, decreaseWorkerCountBy_eq w n p, by simp,
      decreaseEvents_no_collection_mutex _ _, ?_, ?_⟩
    · intro pre e post ht
      exact occAll_whole _ _ (decreaseEvents_heldAfterEntry _ _) pre e post ht
    · intro pre i post ht
      exact occAll_whole _ _ (decreaseEvents_joinUnderInactiveLock _ _) pre _ post ht i rfl

/-- Counterexample to C9 as stated: in `joinAll` on a pool with one inactive and one
active worker, `terminate` of worker 7 is written while its activation mutex is not
held. -/
theorem joinAll_writes_terminate_unlocked :
    ∃ s post, joinAll 2 poolOneOne = .ok s ∧
      s.trace = [Event.lock .activeWorkerContMutex, Event.lock .inactiveWorkerContMutex,
                 Event.unlock .activeWorkerContMutex, Event.unlock .inactiveWorkerContMutex]
                ++ Event.setTerminate 7 :: post ∧
      Mutex.activatorMutex 7 ∉
        held [Event.lock .activeWorkerContMutex, Event.lock .inactiveWorkerContMutex,
              Event.unlock .activeWorkerContMutex, Event.unlock .inactiveWorkerContMutex] :=
  ⟨_, _, rfl, rfl, by decide⟩

/-- C9, amended: in `joinAll` and in `decreaseWorkerCountBy` every write of
`isWorkReallyPosted` is made with the activation mutex of that worker held; every write
of `terminate` is made without it, as the step right before it is acquired. -/
theorem flag_writes_and_activation_mutex (w n : Nat) (p : Pool) :
    (∃ s, joinAll (joinAllPasses p) p = .ok s ∧
      (∀ pre i post, s.trace = pre ++ Event.setIsWorkReallyPosted i :: post →
        Mutex.activatorMutex i ∈ held pre) ∧
      (∀ pre i post, s.trace = pre ++ Event.setTerminate i :: post →
        Mutex.activatorMutex i ∉ held pre ∧
        ∃ post1, post = Event.lock (.activatorMutex i) :: post1)) ∧
    (∃ k s, decreaseWorkerCountBy w n p = .ok (k, s) ∧
      (∀ pre i post, s.trace = pre ++ Event.setIsWorkReallyPosted i :: post →
        Mutex.activatorMutex i ∈ held pre) ∧
      (∀ pre i post, s.trace = pre ++ Event.setTerminate i :: post →
        Mutex.activatorMutex i ∉ held pre ∧
        ∃ post1, post = Event.lock (.activatorMutex i) :: post1)) := by
  constructor
  · refine ⟨_, joinAll_eq p (joinAllPasses p) (by simp [joinAllPasses]), ?_, ?_⟩
    · intro pre i post ht
      exact (occAll_whole _ _ (joinAllEvents_flagWrites _ _ _) pre _ post ht).1 i rfl
    · intro pre i post ht
      exact (occAll_whole _ _ (joinAllEvents_flagWrites _ _ _) pre _ post ht).2 i rfl
  · refine ⟨_, _, decreaseWorkerCountBy_eq w n p, ?_, ?_⟩
    · intro pre i post ht
      exact (occAll_whole _ _ (decreaseEvents_flagWrites _ _) pre _ post ht).1 i rfl
    · intro pre i post ht
      exact (occAll_whole _ _ (decreaseEvents_flagWrites _ _) pre _ post ht).2 i rfl

/-- C10: `joinAll` removes every worker of both collections and `decreaseWorkerCountBy`
the last `k` inactive workers, `k` being the count it returns; the workers a trace erases
are exactly the removed ones, last one first, each with `terminate` and
`isWorkReallyPosted` set.  Every `erase` of a worker comes after, in this order, the write
of its `terminate`, the lock of its activation mutex, the write of its
`isWorkReallyPosted`, its notification, the unlock of its activation mutex and the `join`
of its thread, with at most the lock of the collection in between; and at every `join` no
activation mutex is held. -/
theorem erase_after_terminate_and_join (w n : Nat) (p : Pool) :
    (∃ s, joinAll (joinAllPasses p) p = .ok s ∧
      s.pool.inactiveWorkers = [] ∧ s.pool.activeWorkers = [] ∧
      erased .inactive s.trace = p.inactiveWorkers.reverse.map Worker.toldToTerminate ∧
      erased .active s.trace = p.activeWorkers.reverse.map Worker.toldToTerminate ∧
      (∀ pre c wk post, s.trace = pre ++ Event.erase c wk :: post →
        wk.terminate = true ∧ wk.isWorkReallyPosted = true ∧
        ∃ pre0 mid, pre = pre0 ++
          [Event.setTerminate wk.id, Event.lock (.activatorMutex wk.id),
           Event.setIsWorkReallyPosted wk.id, Event.notifyOne wk.id,
           Event.unlock (.activatorMutex wk.id), Event.join wk.id] ++ mid ∧
          (mid = [] ∨ mid = [Event.lock c.mutex])) ∧
      (∀ pre i post, s.trace = pre ++ Event.join i :: post →
        ∀ j, Mutex.activatorMutex j ∉ held pre)) ∧
    (∃ k s, decreaseWorkerCountBy w n p = .ok (k, s) ∧
      s.pool.inactiveWorkers = p.inactiveWorkers.take (p.inactiveWorkers.length - k) ∧
      s.pool.activeWorkers = p.activeWorkers ∧
      erased .inactive s.trace
        = (p.inactiveWorkers.drop (p.inactiveWorkers.length - k)).reverse.map
            Worker.toldToTerminate ∧
      erased .active s.trace = [] ∧
      (∀ pre c wk post, s.trace = pre ++ Event.erase c wk :: post →
        wk.terminate = true ∧ wk.isWorkReallyPosted = true ∧
        ∃ pre0 mid, pre = pre0 ++
          [Event.setTerminate wk.id, Event.lock (.activatorMutex wk.id),
           Event.setIsWorkReallyPosted wk.id, Event.notifyOne wk.id,
           Event.unlock (.activatorMutex wk.id), Event.join wk.id] ++ mid ∧
          (mid = [] ∨ mid = [Event.lock c.mutex])) ∧
      (∀ pre i post, s.trace = pre ++ Event.join i :: post →
        ∀ j, Mutex.activatorMutex j ∉ held pre)) := by
  have hfuel : max p.inactiveWorkers.length p.activeWorkers.length < joinAllPasses p := by
    simp [joinAllPasses]
  have hle : min n (toWorkerCount w p.inactiveWorkers.length) ≤ p.inactiveWorkers.length :=
    le_trans (min_le_right _ _) (Nat.mod_le _ _)
  constructor
  · refine ⟨_, joinAll_eq p (joinAllPasses p) hfuel, rfl, rfl,
      (erased_joinAllEvents _ _ _ hfuel).1, (erased_joinAllEvents _ _ _ hfuel).2, ?_, ?_⟩
    · intro pre c wk post ht
      exact (occAll_whole _ _ (joinAllEvents_terminatedThenErased _ _ _) pre _ post ht).1
        c wk rfl
    · intro pre i post ht
      exact (occAll_whole _ _ (joinAllEvents_terminatedThenErased _ _ _) pre _ post ht).2
        i rfl
  · refine ⟨_, _, decreaseWorkerCountBy_eq w n p, rfl, rfl, ?_, ?_, ?_, ?_⟩
    · show erased .inactive ([Event.lock .inactiveWorkerContMutex] ++ decreaseEvents _ _
        ++ [Event.unlock .inactiveWorkerContMutex]) = _
      rw [erased_append, erased_append, (erased_decreaseEvents _ _ hle).1]
      simp [erased]
    · show erased .active ([Event.lock .inactiveWorkerContMutex] ++ decreaseEvents _ _
        ++ [Event.unlock .inactiveWorkerContMutex]) = _
      rw [erased_append, erased_append, (erased_decreaseEvents _ _ hle).2]
      simp [erased]
    · intro pre c wk post ht
      exact (occAll_whole _ _ (decreaseEvents_terminatedThenErased _ _) pre _ post ht).1
        c wk rfl
    · intro pre i post ht
      exact (occAll_whole _ _ (decreaseEvents_terminatedThenErased _ _) pre _ post ht).2
        i rfl

end threadpool11
